import Mathlib

/-!
Verification of the dependency-graph builder of `SoftwareThatMatters`
(`src/graph/graph.go`), as a shallow embedding in Lean 4.

Go maps are embedded as association lists with overwrite-on-insert
semantics; map iteration follows insertion order, which is one
admissible schedule of Go's unspecified map iteration order.  Node ids
(`int64` in Go) are embedded as `Int`; the id counters stay far below
2^63 so overflow never matters.  Pointer-linked `GraphNode` heaps are
embedded as a finite adjacency table keyed by node id, and every
recursive traversal of the heap is embedded as a structurally
recursive function on an explicit fuel parameter: a `none` result
means the recursion was cut off by the fuel, so "the Go code
terminates here" is "some fuel makes the result `some`" and "the Go
code loops forever here" is "the result is `none` for every fuel".
-/

/-- Association-list lookup, the embedding of a Go map read `m[k]`
(the caller applies `Option.getD` with the Go zero value). -/
def alookup {α β : Type} [DecidableEq α] : List (α × β) → α → Option β
  | [], _ => none
  | (k, v) :: rest, x => if x = k then some v else alookup rest x

/-- Association-list write, the embedding of a Go map write `m[k] = v`:
overwrite the existing entry or append a fresh one. -/
def ainsert {α β : Type} [DecidableEq α] : List (α × β) → α → β → List (α × β)
  | [], k, v => [(k, v)]
  | (k', v') :: rest, k, v =>
      if k = k' then (k, v) :: rest else (k', v') :: ainsert rest k v

/-- `VersionInfo` from `graph.go`: timestamp plus the declared
dependency constraints (dependency name to range string). -/
structure VersionInfo where
  timestamp : String
  dependencies : List (String × String)
deriving DecidableEq

/-- `PackageInfo` from `graph.go`: a package name and its published
versions (version string to `VersionInfo`). -/
structure PackageInfo where
  name : String
  versions : List (String × VersionInfo)
deriving DecidableEq

/-- `nodeInfo` from `graph.go`: the payload a node carries. -/
structure NodeInfoT where
  id : String
  Name : String
  Version : String
  Timestamp : String
deriving DecidableEq

/-- The `NodeInfo` constructor from `graph.go`: fills `id` with
`fmt.Sprintf("%s-%s", name, version)`. -/
def NodeInfo (name version timestamp : String) : NodeInfoT :=
  { id := name ++ "-" ++ version
    Name := name
    Version := version
    Timestamp := timestamp }

/-- A semantic version `major.minor.patch`.  Modelled from the spec:
the Version Matcher (§4.2) is the external library
`github.com/blang/semver/v4`, which is not part of this repository;
pre-release and build tags are not needed by any claim. -/
structure SemVersion where
  major : Nat
  minor : Nat
  patch : Nat
deriving DecidableEq

/-- The zero `Version{}` value that blang/semver's `Parse` returns
together with an error on malformed input. -/
def zeroVersion : SemVersion := ⟨0, 0, 0⟩

/-- Strict semantic-versioning order on versions. -/
def vlt (a b : SemVersion) : Bool :=
  decide (a.major < b.major ∨ (a.major = b.major ∧
    (a.minor < b.minor ∨ (a.minor = b.minor ∧ a.patch < b.patch))))

/-- Reflexive semantic-versioning order on versions. -/
def vle (a b : SemVersion) : Bool :=
  vlt a b || a == b

/-- Caret-range semantics: `^x.y.z` admits versions at or above
`x.y.z` that do not change the leftmost nonzero component. -/
def caretMatch (v w : SemVersion) : Bool :=
  vle v w && (if v.major == 0 then w.major == 0 && w.minor == v.minor
              else w.major == v.major)

/-- Parse a run of decimal digits. -/
def parseNatGo : Nat → List Char → Option Nat
  | acc, [] => some acc
  | acc, c :: cs =>
      if c.isDigit then parseNatGo (acc * 10 + (c.toNat - 48)) cs else none

/-- Parse a nonempty run of decimal digits. -/
def parseNatDigits : List Char → Option Nat
  | [] => none
  | cs => parseNatGo 0 cs

/-- Split a character list at every dot. -/
def splitDots : List Char → List (List Char)
  | [] => [[]]
  | c :: rest =>
      if c = '.' then [] :: splitDots rest
      else
        match splitDots rest with
        | [] => [[c]]
        | g :: gs => (c :: g) :: gs

/-- Parse `major.minor.patch` from characters. -/
def parseVersionChars (cs : List Char) : Option SemVersion :=
  match splitDots cs with
  | [a, b, c] =>
      match parseNatDigits a, parseNatDigits b, parseNatDigits c with
      | some x, some y, some z => some ⟨x, y, z⟩
      | _, _, _ => none
  | _ => none

/-- Modelled from the spec: `Parse` of the external Version Matcher
library (§4.2), on the plain `major.minor.patch` fragment. -/
def semParse (s : String) : Except String SemVersion :=
  match parseVersionChars s.toList with
  | some v => Except.ok v
  | none => Except.error "invalid version"

/-- Modelled from the spec: `ParseRange` of the external Version
Matcher library (§4.2), on the fragment needed here: `*`, caret
ranges, upper bounds `<x.y.z`, and exact versions. -/
def semParseRange (s : String) : Except String (SemVersion → Bool) :=
  match s.toList with
  | ['*'] => Except.ok (fun _ => true)
  | '^' :: rest =>
      match parseVersionChars rest with
      | some v => Except.ok (fun w => caretMatch v w)
      | none => Except.error "invalid range"
  | '<' :: rest =>
      match parseVersionChars rest with
      | some v => Except.ok (fun w => vlt w v)
      | none => Except.error "invalid range"
  | cs =>
      match parseVersionChars cs with
      | some v => Except.ok (fun w => w == v)
      | none => Except.error "invalid range"

/-- The interface of the external semantic-versioning library: the
edge-resolution code is parametric in it. -/
structure Semver where
  parseRange : String → Except String (SemVersion → Bool)
  parse : String → Except String SemVersion

/-- The concrete matcher used to evaluate the code on test inputs. -/
def miniSemver : Semver := ⟨semParseRange, semParse⟩

/-- Modelled from the spec: the Graph Store (§4.4), implemented in the
repository by the external `gonum simple.DirectedGraph`: a node set
and a directed edge set, with set (idempotent) insertion. -/
structure DirectedGraph where
  nodes : List Int
  edges : List (Int × Int)
deriving DecidableEq

/-- Graph Store node insertion (no duplicate node created). -/
def addNode (g : DirectedGraph) (id : Int) : DirectedGraph :=
  if id ∈ g.nodes then g else { g with nodes := g.nodes ++ [id] }

/-- Graph Store edge insertion; `SetEdge` replaces an existing edge
with the same endpoints, so re-adding an edge is idempotent. -/
def setEdge (g : DirectedGraph) (e : Int × Int) : DirectedGraph :=
  if e ∈ g.edges then g else { g with edges := g.edges ++ [e] }

/-- A `GraphNode` struct from `graph.go`: an id and the owned neighbor
list; neighbor pointers are embedded as the neighbors' ids. -/
structure GraphNodeL where
  id : Int
  Neighbors : List Int
deriving DecidableEq

/-- `NewGraphNode` from `graph.go`. -/
def NewGraphNode (id : Int) : GraphNodeL := ⟨id, []⟩

/-- `AddNeighbor` from `graph.go`:
`g.Neighbors = append(g.Neighbors, graph.Node(n))`. -/
def AddNeighbor (g n : GraphNodeL) : GraphNodeL :=
  { g with Neighbors := g.Neighbors ++ [n.id] }

/-- Inner loop of `CreateMap`: one entry per version of one package,
assigning consecutive ids. -/
def addVersionsGo (nm : String) :
    List (String × VersionInfo) → Int → List (Int × NodeInfoT) →
    List (Int × NodeInfoT) × Int
  | [], id, m => (m, id)
  | (v, vi) :: rest, id, m =>
      addVersionsGo nm rest (id + 1) (ainsert m id (NodeInfo nm v vi.timestamp))

/-- Outer loop of `CreateMap` over the package list. -/
def createMapGo : List PackageInfo → Int → List (Int × NodeInfoT) →
    List (Int × NodeInfoT)
  | [], _, m => m
  | p :: ps, id, m =>
      let r := addVersionsGo p.name p.versions id m
      createMapGo ps r.2 r.1

/-- `CreateMap` from `graph.go`: assign node ids `0, 1, ...` to the
(package, version) pairs in enumeration order. -/
def CreateMap (input : List PackageInfo) : List (Int × NodeInfoT) :=
  createMapGo input 0 []

/-- Loop of `CreateNameToIDMap`: `newMap[key.id] = id` per entry. -/
def cimGo : List (Int × NodeInfoT) → List (String × Int) → List (String × Int)
  | [], acc => acc
  | (id, key) :: rest, acc => cimGo rest (ainsert acc key.id id)

/-- `CreateNameToIDMap` from `graph.go`. -/
def CreateNameToIDMap (m : List (Int × NodeInfoT)) : List (String × Int) :=
  cimGo m []

/-- Inner loop of `CreateNameToVersionMap`:
`newMap[name] = append(newMap[name], k)` per version key. -/
def nvmAddVersions (nm : String) :
    List (String × VersionInfo) → List (String × List String) →
    List (String × List String)
  | [], m => m
  | (k, _) :: rest, m =>
      nvmAddVersions nm rest (ainsert m nm ((alookup m nm).getD [] ++ [k]))

/-- Outer loop of `CreateNameToVersionMap` over the package list. -/
def cnvGo : List PackageInfo → List (String × List String) →
    List (String × List String)
  | [], m => m
  | p :: ps, m => cnvGo ps (nvmAddVersions p.name p.versions m)

/-- `CreateNameToVersionMap` from `graph.go`. -/
def CreateNameToVersionMap (input : List PackageInfo) : List (String × List String) :=
  cnvGo input []

/-- Loop of `CreateGraph`: add one node per key of the id map. -/
def cgGo : List (Int × NodeInfoT) → DirectedGraph → DirectedGraph
  | [], g => g
  | (x, _) :: rest, g => cgGo rest (addNode g x)

/-- `CreateGraph` from `graph.go`. -/
def CreateGraph (m : List (Int × NodeInfoT)) : DirectedGraph :=
  cgGo m { nodes := [], edges := [] }

/-- The mutable state reachable through the pointers passed to
`CreateEdges`: the graph plus the two frozen indices and the input
package list.  Threading it makes any mutation observable. -/
structure BuildState where
  graph : DirectedGraph
  inputList : List PackageInfo
  nameToID : List (String × Int)
  nameToVersion : List (String × List String)
deriving DecidableEq

/-- Innermost loop of `CreateEdges`: for every published version `v`
of the dependency, `newVersion, _ := semver2.Parse(v)` (a parse error
is discarded, leaving the zero `Version{}`), and on a range match an
edge from node `pid` to `graph.Node(nameToID[depName-v])` is set. -/
def edgesForMatches (S : Semver) (c : SemVersion → Bool) (dn : String) :
    List String → Int → BuildState → BuildState
  | [], _, st => st
  | v :: vs, pid, st =>
      let newVersion : SemVersion :=
        match S.parse v with
        | Except.ok w => w
        | Except.error _ => zeroVersion
      if c newVersion then
        let dnvs : String := dn ++ "-" ++ v
        let dependencyNode : Int := (alookup st.nameToID dnvs).getD 0
        edgesForMatches S c dn vs pid
          { st with graph := setEdge st.graph (pid, dependencyNode) }
      else
        edgesForMatches S c dn vs pid st

/-- Dependency loop of `CreateEdges`: `semver2.ParseRange` of the
declared range; on error the Go code `panic(err)`s, embedded as an
`Except.error` that aborts the whole build. -/
def edgesForDeps (S : Semver) :
    List (String × String) → Int → BuildState → Except String BuildState
  | [], _, st => Except.ok st
  | (dn, dr) :: rest, pid, st =>
      match S.parseRange dr with
      | Except.error e => Except.error e
      | Except.ok c =>
          edgesForDeps S rest pid
            (edgesForMatches S c dn ((alookup st.nameToVersion dn).getD []) pid st)

/-- Version loop of `CreateEdges` (the version key is ignored; only
the `VersionInfo` value is used). -/
def edgesForVersions (S : Semver) :
    List (String × VersionInfo) → Int → BuildState → Except String BuildState
  | [], _, st => Except.ok st
  | (_, vi) :: rest, pid, st =>
      match edgesForDeps S vi.dependencies pid st with
      | Except.error e => Except.error e
      | Except.ok st' => edgesForVersions S rest pid st'

/-- Package loop of `CreateEdges`: `for id, packageInfo := range
packagesInfo` — `idx` is the index of the package in the input list,
and it is this index that is used as the source node id. -/
def edgesForPackages (S : Semver) :
    List PackageInfo → Int → BuildState → Except String BuildState
  | [], _, st => Except.ok st
  | p :: ps, idx, st =>
      match edgesForVersions S p.versions idx st with
      | Except.error e => Except.error e
      | Except.ok st' => edgesForPackages S ps (idx + 1) st'

/-- `CreateEdges` from `graph.go`, over the threaded build state. -/
def CreateEdges (S : Semver) (st : BuildState) : Except String BuildState :=
  edgesForPackages S st.inputList 0 st

/-- Assemble the state exactly as the repository's pipeline does:
`CreateMap`, then the two index maps and the node-populated graph. -/
def mkState (input : List PackageInfo) : BuildState :=
  { graph := CreateGraph (CreateMap input)
    inputList := input
    nameToID := CreateNameToIDMap (CreateMap input)
    nameToVersion := CreateNameToVersionMap input }

/-- Did the build succeed (Go: did `CreateEdges` return rather than
panic)? -/
def exceptOk {ε α : Type} : Except ε α → Bool
  | Except.ok _ => true
  | Except.error _ => false

/-- Observe the edge list of a finished build. -/
def edgesOf : Except String BuildState → Option (List (Int × Int))
  | Except.ok s => some s.graph.edges
  | Except.error _ => none

/-- Observe the abort message of a failed build. -/
def errorOf : Except String BuildState → Option String
  | Except.error e => some e
  | Except.ok _ => none

/-- Every declared range constraint in the input parses. -/
def RangesOk (S : Semver) (input : List PackageInfo) : Bool :=
  input.all (fun p => p.versions.all (fun q =>
    q.2.dependencies.all (fun d => exceptOk (S.parseRange d.2))))

/-- Fixture: package `A` with versions `1.0.0` and `2.0.0` (no
dependencies), package `B` with version `1.0.0` depending on
`A: ^1.0.0`.  Node ids: `A-1.0.0 ↦ 0`, `A-2.0.0 ↦ 1`, `B-1.0.0 ↦ 2`;
`B` sits at index 1 of the package list. -/
def inputC1 : List PackageInfo :=
  [ { name := "A"
      versions := [("1.0.0", { timestamp := "t1", dependencies := [] }),
                   ("2.0.0", { timestamp := "t2", dependencies := [] })] },
    { name := "B"
      versions := [("1.0.0", { timestamp := "t3",
                               dependencies := [("A", "^1.0.0")] })] } ]

/-- Fixture: a single package whose one declared range does not parse. -/
def inputC2 : List PackageInfo :=
  [ { name := "A"
      versions := [("1.0.0", { timestamp := "t1",
                               dependencies := [("B", "not-a-range")] })] } ]

/-- Fixture: `B` has the malformed published version `garbage`
(node 0); `A-1.0.0` (node 1, and index 1) depends on `B: <1.0.0`,
a range that admits the zero version `0.0.0`. -/
def inputC8 : List PackageInfo :=
  [ { name := "B"
      versions := [("garbage", { timestamp := "t0", dependencies := [] })] },
    { name := "A"
      versions := [("1.0.0", { timestamp := "t1",
                               dependencies := [("B", "<1.0.0")] })] } ]

/-- A heap of `GraphNode`s, embedded as an adjacency table: node id to
the node's owned `Neighbors` list (the pointers are the ids).  A
pointer-linked heap may be cyclic, which an inductive value cannot be,
hence the explicit table. -/
structure ImpGraph where
  adj : List (Int × List Int)
deriving DecidableEq

/-- The `Neighbors` list of the node with the given id. -/
def neighbors (G : ImpGraph) (i : Int) : List Int :=
  (alookup G.adj i).getD []

/-- `seen[n] = struct{}{}` on a set represented as a list. -/
def insSeen (n : Int) (seen : List Int) : List Int :=
  if n ∈ seen then seen else n :: seen

/-- The loop body of `GraphNode.Has`, parametric in the recursive call
`rec` (the fueled `Has` one level deeper): skip seen neighbors, mark,
test, recurse.  Returns the answer and the mutated seen set. -/
def hasListGo (rec : Int → Int → List Int → Option (Bool × List Int)) :
    List Int → Int → List Int → Option (Bool × List Int)
  | [], _, seen => some (false, seen)
  | n :: ns, id, seen =>
      if n ∈ seen then hasListGo rec ns id seen
      else if n = id then some (true, n :: seen)
      else
        match rec n id (n :: seen) with
        | none => none
        | some (true, s) => some (true, s)
        | some (false, s) => hasListGo rec ns id s

/-- `GraphNode.Has` from `graph.go`, with fuel: `none` means the
recursion exceeded the fuel. -/
def hasAux (G : ImpGraph) : Nat → Int → Int → List Int → Option (Bool × List Int)
  | 0, _, _, _ => none
  | fuel + 1, g, id, seen => hasListGo (hasAux G fuel) (neighbors G g) id seen

/-- The loop of `GraphNode.Node` over the root's direct neighbors: a
direct neighbor with the requested id is returned; otherwise, if `id`
is found anywhere in the neighbor `gn`'s subtree, `gn` itself is
returned (`return gn` in the Go source). -/
def nodeLoop (G : ImpGraph) (fuel : Nat) :
    List Int → List Int → Int → Option (Option Int)
  | [], _, _ => some none
  | n :: ns, seen, id =>
      if n = id then some (some n)
      else
        match hasAux G fuel n id seen with
        | none => none
        | some (true, _) => some (some n)
        | some (false, s) => nodeLoop G fuel ns s id

/-- `GraphNode.Node` from `graph.go`, with fuel; the inner `Option` is
the returned node's id (`none` is Go's `nil`). -/
def NodeF (G : ImpGraph) (fuel : Nat) (g id : Int) : Option (Option Int) :=
  if id = g then some (some g)
  else nodeLoop G fuel (neighbors G g) [g] id

/-- The loop body of the unexported `GraphNode.nodes` helper,
parametric in the recursive call.  Note, as in the Go source: a
neighbor already seen is skipped, but a newly visited neighbor is
appended to `dst` and recursed into without ever being added to
`seen`. -/
def nodesListGo (rec : Int → List Int → List Int → Option (List Int)) :
    List Int → List Int → List Int → Option (List Int)
  | [], dst, _ => some dst
  | n :: ns, dst, seen =>
      if n ∈ seen then nodesListGo rec ns dst seen
      else
        match rec n (dst ++ [n]) seen with
        | none => none
        | some d => nodesListGo rec ns d seen

/-- The unexported `GraphNode.nodes` helper from `graph.go`, with fuel. -/
def nodesAux (G : ImpGraph) : Nat → Int → List Int → List Int → Option (List Int)
  | 0, _, _, _ => none
  | fuel + 1, g, dst, seen => nodesListGo (nodesAux G fuel) (neighbors G g) dst seen

/-- The loop of `GraphNode.Nodes` over the root's direct neighbors:
each direct neighbor is appended to the result and marked seen without
first checking whether it is already present. -/
def nodesTop (G : ImpGraph) (fuel : Nat) :
    List Int → List Int → List Int → Option (List Int)
  | [], dst, _ => some dst
  | n :: ns, dst, seen =>
      match nodesAux G fuel n (dst ++ [n]) (insSeen n seen) with
      | none => none
      | some d => nodesTop G fuel ns d (insSeen n seen)

/-- `GraphNode.Nodes` from `graph.go`, with fuel: root first, then the
traversal of each direct neighbor. -/
def NodesF (G : ImpGraph) (fuel : Nat) (g : Int) : Option (List Int) :=
  nodesTop G fuel (neighbors G g) [g] [g]

/-- The anchor scan shared by `EdgeBetween` and `edgeBetween`: the
first direct neighbor whose id is `u` or `v` yields the edge
`(anchor, neighbor)`. -/
def matchNeighbor : List Int → Int → Int → Int → Option (Int × Int)
  | [], _, _, _ => none
  | n :: ns, g, u, v =>
      if n == u || n == v then some (g, n) else matchNeighbor ns g u v

/-- The loop body of the unexported `GraphNode.edgeBetween`,
parametric in the recursive call: skip seen neighbors, mark, recurse;
a non-nil result ends the search. -/
def ebListGo (rec : Int → Int → Int → List Int → Option (Option (Int × Int) × List Int)) :
    List Int → Int → Int → List Int → Option (Option (Int × Int) × List Int)
  | [], _, _, seen => some (none, seen)
  | n :: ns, u, v, seen =>
      if n ∈ seen then ebListGo rec ns u v seen
      else
        match rec n u v (n :: seen) with
        | none => none
        | some (some e, s) => some (some e, s)
        | some (none, s) => ebListGo rec ns u v s

/-- The unexported `GraphNode.edgeBetween` from `graph.go`, with fuel:
if the current node's id is `u` or `v` the search stops here and only
the direct neighbor list is scanned; otherwise recurse. -/
def ebAux (G : ImpGraph) : Nat → Int → Int → Int → List Int →
    Option (Option (Int × Int) × List Int)
  | 0, _, _, _, _ => none
  | fuel + 1, g, u, v, seen =>
      if u == g || v == g then some (matchNeighbor (neighbors G g) g u v, seen)
      else ebListGo (ebAux G fuel) (neighbors G g) u v seen

/-- The loop of `GraphNode.EdgeBetween` over the root's direct
neighbors: mark every direct neighbor seen, then recurse into it. -/
def ebTop (G : ImpGraph) (fuel : Nat) :
    List Int → Int → Int → List Int → Option (Option (Int × Int))
  | [], _, _, _ => some none
  | n :: ns, u, v, seen =>
      match ebAux G fuel n u v (insSeen n seen) with
      | none => none
      | some (some e, _) => some (some e)
      | some (none, s) => ebTop G fuel ns u v s

/-- `GraphNode.EdgeBetween` from `graph.go`, with fuel; the inner
`Option (Int × Int)` is the returned `simple.Edge` as a `(from, to)`
pair (`none` is Go's `nil`). -/
def EdgeBetweenF (G : ImpGraph) (fuel : Nat) (g u v : Int) : Option (Option (Int × Int)) :=
  if u == g || v == g then some (matchNeighbor (neighbors G g) g u v)
  else ebTop G fuel (neighbors G g) u v [g]

/-- One round of neighbor expansion, for the reachability predicate. -/
def expandOnce (G : ImpGraph) (l : List Int) : List Int :=
  (l ++ l.flatMap (neighbors G)).dedup

/-- All nodes within `n` neighbor steps of `s`. -/
def reachSet (G : ImpGraph) : Nat → Int → List Int
  | 0, s => [s]
  | n + 1, s => expandOnce G (reachSet G n s)

/-- `b` is reachable from `a` by following neighbor links. -/
def Reachable (G : ImpGraph) (a b : Int) : Prop :=
  b ∈ reachSet G G.adj.length a

instance (G : ImpGraph) (a b : Int) : Decidable (Reachable G a b) := by
  unfold Reachable; infer_instance

/-- Fixture: the 3-cycle `0 → 1 → 2 → 0` named by the spec's test
property for root-relative lookup. -/
def G3 : ImpGraph := ⟨[(0, [1]), (1, [2]), (2, [0])]⟩

/-- Fixture: root `0` with direct neighbors `1` and `2`, where `2` is
also reachable through `1` — two paths to the same node. -/
def G4 : ImpGraph := ⟨[(0, [1, 2]), (1, [2]), (2, [])]⟩

/-- Fixture: a cycle `2 → 3 → 2` at depth ≥ 2 from the root `0`. -/
def G5 : ImpGraph := ⟨[(0, [1]), (1, [2]), (2, [3]), (3, [2])]⟩

/-- The state built by the pipeline on `inputC1`. -/
def stC1 : BuildState := mkState inputC1

/-- The state after `CreateEdges` on `inputC1`: only the edge list of
the graph differs from `stC1`. -/
def stC1Res : BuildState :=
  { stC1 with graph := { stC1.graph with edges := [(1, 0)] } }

/-- Pair each list element with a consecutive id starting at `i`. -/
def enumFrom : Int → List NodeInfoT → List (Int × NodeInfoT)
  | _, [] => []
  | i, a :: as => (i, a) :: enumFrom (i + 1) as

/-- The `NodeInfo` payloads of the (package, version) pairs of the
input, in the enumeration order of `CreateMap`. -/
def infosOf : List PackageInfo → List NodeInfoT
  | [] => []
  | p :: ps =>
      p.versions.map (fun q => NodeInfo p.name q.1 q.2.timestamp) ++ infosOf ps

/-- C1: the spec requires an edge `u → v` exactly when the
(package, version) pair with NodeId `u` declares a constraint that `v`
satisfies.  On `inputC1` the only constraint is declared by `B-1.0.0`
(NodeId 2) and is satisfied exactly by `A-1.0.0` (NodeId 0), so the
claim demands exactly the edge `(2, 0)`; the code instead produces the
edge `(1, 0)`, sourcing it at `B`'s *package-list index* 1, which is
the NodeId of the unrelated pair `A-2.0.0`. -/
theorem createEdges_uses_package_index_as_source :
    edgesOf (CreateEdges miniSemver (mkState inputC1)) = some [(1, 0)] ∧
    alookup (CreateNameToIDMap (CreateMap inputC1)) "B-1.0.0" = some 2 ∧
    alookup (CreateNameToIDMap (CreateMap inputC1)) "A-2.0.0" = some 1 := by
  refine ⟨by decide, by decide, by decide⟩

/-- C2: on a range constraint that fails to parse, `CreateEdges` does
not skip the constraint and continue — it panics (`panic(err)`),
embedded here as an `Except.error` aborting the whole build. -/
theorem createEdges_aborts_on_malformed_range :
    errorOf (CreateEdges miniSemver (mkState inputC2)) = some "invalid range" := by
  decide

/-- C3: on the spec's own 3-cycle fixture `0 → 1 → 2 → 0`, root-relative
lookup is correct at depths 0 and 1, but `Node(2)` returns the node
with id 1 — the depth-1 neighbor through whose subtree 2 was found
(`return gn` in the Go source) — not the node whose `ID()` is 2. -/
theorem node_lookup_returns_wrong_node :
    NodeF G3 4 0 0 = some (some 0) ∧ NodeF G3 4 0 1 = some (some 1) ∧
    NodeF G3 4 0 2 = some (some 1) := by
  refine ⟨by decide, by decide, by decide⟩

/-- C4: on a root with direct neighbors 1 and 2 where 2 is also
reachable through 1, `Nodes` returns node 2 twice: the top-level loop
of `Nodes` appends every direct neighbor without consulting the
visited set. -/
theorem nodes_enumeration_duplicates :
    NodesF G4 4 0 = some [0, 1, 2, 2] ∧ ¬ ([0, 1, 2, 2] : List Int).Nodup := by
  refine ⟨by decide, by decide⟩

/-- The mutual divergence on `G5`: starting from nodes 2 and 3 with the
visited set `[1, 0]`, the `nodes` helper runs out of any amount of
fuel, because it never adds the nodes it visits to the visited set and
2 and 3 point at each other. -/
theorem nodesAux_G5_stuck (fuel : Nat) :
    (∀ dst, nodesAux G5 fuel 2 dst [1, 0] = none) ∧
    (∀ dst, nodesAux G5 fuel 3 dst [1, 0] = none) := by
  induction fuel with
  | zero => exact ⟨fun _ => rfl, fun _ => rfl⟩
  | succ f ih =>
      constructor
      · intro dst
        have h3 : neighbors G5 2 = [3] := by decide
        show nodesListGo (nodesAux G5 f) (neighbors G5 2) dst [1, 0] = none
        rw [h3]
        simp only [nodesListGo]
        rw [if_neg (by decide), ih.2 (dst ++ [3])]
      · intro dst
        have h2 : neighbors G5 3 = [2] := by decide
        show nodesListGo (nodesAux G5 f) (neighbors G5 3) dst [1, 0] = none
        rw [h2]
        simp only [nodesListGo]
        rw [if_neg (by decide), ih.1 (dst ++ [2])]

/-- C5: the traversal operations do *not* all terminate on every finite
neighbor-linked graph.  On `G5` (a cycle `2 → 3 → 2` at depth ≥ 2 from
the root), `Nodes` diverges for every amount of fuel: its `nodes`
helper checks the visited set but never inserts into it, so the cycle
is re-expanded forever. -/
theorem nodes_enumeration_diverges_on_deep_cycle :
    ∀ fuel : Nat, NodesF G5 fuel 0 = none := by
  have key : ∀ (fuel : Nat) (dst : List Int), nodesAux G5 fuel 1 dst [1, 0] = none := by
    intro fuel dst
    match fuel with
    | 0 => rfl
    | f + 1 =>
        have h1 : neighbors G5 1 = [2] := by decide
        show nodesListGo (nodesAux G5 f) (neighbors G5 1) dst [1, 0] = none
        rw [h1]
        simp only [nodesListGo]
        rw [if_neg (by decide), (nodesAux_G5_stuck f).1 (dst ++ [2])]
  intro fuel
  have h0 : neighbors G5 0 = [1] := by decide
  have hs : insSeen 1 [0] = [1, 0] := by decide
  show nodesTop G5 fuel (neighbors G5 0) [0] [0] = none
  rw [h0]
  simp only [nodesTop]
  rw [hs, key fuel ([0] ++ [1])]

/-- C6 counterexample: in the 3-cycle, node 2 is reachable from the
root 0 and has the other queried id 0 in its direct neighbor list, yet
`EdgeBetween(0, 2)` returns nil: since one endpoint equals the root's
id, only the root's direct neighbor list is consulted and no search
runs. -/
theorem edgeBetween_misses_reachable_anchor :
    Reachable G3 0 2 ∧ (0 : Int) ∈ neighbors G3 2 ∧
    EdgeBetweenF G3 4 0 0 2 = some none := by
  refine ⟨by decide, by decide, by decide⟩

/-- C7 counterexample: adding the same neighbor twice with
`AddNeighbor` is not idempotent — the neighbor (edge) count grows from
1 to 2. -/
theorem addNeighbor_not_idempotent :
    (AddNeighbor (AddNeighbor (NewGraphNode 0) (NewGraphNode 1)) (NewGraphNode 1)).Neighbors.length ≠
    (AddNeighbor (NewGraphNode 0) (NewGraphNode 1)).Neighbors.length := by
  decide

/-- C7 amended: node insertion into the graph store and `SetEdge` are
idempotent (the store follows §4.4 of the spec, as the external gonum
graph's `SetEdge` replaces an existing edge), but `AddNeighbor`
appends unconditionally, so adding the same neighbor a second time
creates a duplicate entry. -/
theorem store_idempotent_but_addNeighbor_appends :
    (∀ (g : DirectedGraph) (id : Int), addNode (addNode g id) id = addNode g id) ∧
    (∀ (g : DirectedGraph) (e : Int × Int), setEdge (setEdge g e) e = setEdge g e) ∧
    (∀ (g n : GraphNodeL), (AddNeighbor g n).Neighbors = g.Neighbors ++ [n.id]) := by
  refine ⟨fun g id => ?_, fun g e => ?_, fun g n => rfl⟩
  · by_cases h : id ∈ g.nodes
    · simp [addNode, h]
    · simp [addNode, h]
  · by_cases h : e ∈ g.edges
    · simp [setEdge, h]
    · simp [setEdge, h]

/-- C8 counterexample: `B`'s published version string `garbage` fails
to parse, yet the constraint `B: <1.0.0` still contributes an edge to
`B-garbage`'s node (node 0), because the discarded parse error leaves
the zero version `0.0.0`, which the range admits. -/
theorem malformed_version_contributes_edge :
    edgesOf (CreateEdges miniSemver (mkState inputC8)) = some [(1, 0)] ∧
    alookup (CreateNameToIDMap (CreateMap inputC8)) "B-garbage" = some 0 := by
  refine ⟨by decide, by decide⟩

/-- The innermost matching loop only ever rebuilds the graph
component of the state; the two indices and the input list are passed
through untouched. -/
theorem edgesForMatches_frame (S : Semver) (c : SemVersion → Bool) (dn : String) :
    ∀ (vs : List String) (pid : Int) (st : BuildState),
      (edgesForMatches S c dn vs pid st).nameToID = st.nameToID ∧
      (edgesForMatches S c dn vs pid st).nameToVersion = st.nameToVersion ∧
      (edgesForMatches S c dn vs pid st).inputList = st.inputList := by
  intro vs
  induction vs with
  | nil => intro pid st; exact ⟨rfl, rfl, rfl⟩
  | cons v vs ih =>
      intro pid st
      simp only [edgesForMatches]
      split
      · exact ih pid _
      · exact ih pid st

/-- The dependency loop preserves the indices and the input list. -/
theorem edgesForDeps_frame (S : Semver) :
    ∀ (deps : List (String × String)) (pid : Int) (st st' : BuildState),
      edgesForDeps S deps pid st = Except.ok st' →
      st'.nameToID = st.nameToID ∧ st'.nameToVersion = st.nameToVersion ∧
      st'.inputList = st.inputList := by
  intro deps
  induction deps with
  | nil =>
      intro pid st st' h
      cases h
      exact ⟨rfl, rfl, rfl⟩
  | cons d rest ih =>
      obtain ⟨dn, dr⟩ := d
      intro pid st st' h
      simp only [edgesForDeps] at h
      cases hp : S.parseRange dr with
      | error e => rw [hp] at h; cases h
      | ok c =>
          rw [hp] at h
          have h2 := ih pid _ st' h
          have h3 := edgesForMatches_frame S c dn ((alookup st.nameToVersion dn).getD []) pid st
          exact ⟨h2.1.trans h3.1, h2.2.1.trans h3.2.1, h2.2.2.trans h3.2.2⟩

/-- The version loop preserves the indices and the input list. -/
theorem edgesForVersions_frame (S : Semver) :
    ∀ (vers : List (String × VersionInfo)) (pid : Int) (st st' : BuildState),
      edgesForVersions S vers pid st = Except.ok st' →
      st'.nameToID = st.nameToID ∧ st'.nameToVersion = st.nameToVersion ∧
      st'.inputList = st.inputList := by
  intro vers
  induction vers with
  | nil =>
      intro pid st st' h
      cases h
      exact ⟨rfl, rfl, rfl⟩
  | cons q rest ih =>
      obtain ⟨k, vi⟩ := q
      intro pid st st' h
      simp only [edgesForVersions] at h
      cases hd : edgesForDeps S vi.dependencies pid st with
      | error e => rw [hd] at h; cases h
      | ok st1 =>
          rw [hd] at h
          have h2 := ih pid st1 st' h
          have h3 := edgesForDeps_frame S vi.dependencies pid st st1 hd
          exact ⟨h2.1.trans h3.1, h2.2.1.trans h3.2.1, h2.2.2.trans h3.2.2⟩

/-- The package loop preserves the indices and the input list. -/
theorem edgesForPackages_frame (S : Semver) :
    ∀ (ps : List PackageInfo) (idx : Int) (st st' : BuildState),
      edgesForPackages S ps idx st = Except.ok st' →
      st'.nameToID = st.nameToID ∧ st'.nameToVersion = st.nameToVersion ∧
      st'.inputList = st.inputList := by
  intro ps
  induction ps with
  | nil =>
      intro idx st st' h
      cases h
      exact ⟨rfl, rfl, rfl⟩
  | cons p rest ih =>
      intro idx st st' h
      simp only [edgesForPackages] at h
      cases hv : edgesForVersions S p.versions idx st with
      | error e => rw [hv] at h; cases h
      | ok st1 =>
          rw [hv] at h
          have h2 := ih (idx + 1) st1 st' h
          have h3 := edgesForVersions_frame S p.versions idx st st1 hv
          exact ⟨h2.1.trans h3.1, h2.2.1.trans h3.2.1, h2.2.2.trans h3.2.2⟩

/-- C9: whenever `CreateEdges` completes, the name+version→id index,
the name→versions index and the input package list hold exactly the
entries they held before edge resolution began — only the graph
component of the threaded state is ever rebuilt. -/
theorem createEdges_preserves_indices (S : Semver) (st st' : BuildState)
    (h : CreateEdges S st = Except.ok st') :
    st'.nameToID = st.nameToID ∧ st'.nameToVersion = st.nameToVersion ∧
    st'.inputList = st.inputList :=
  edgesForPackages_frame S st.inputList 0 st st' h

/-- Witness for C9 at the concrete fixture `inputC1`. -/
theorem createEdges_preserves_indices_witness :
    CreateEdges miniSemver stC1 = Except.ok stC1Res ∧
    stC1Res.nameToID = stC1.nameToID ∧ stC1Res.nameToVersion = stC1.nameToVersion ∧
    stC1Res.inputList = stC1.inputList := by
  have h : CreateEdges miniSemver stC1 = Except.ok stC1Res := by rfl
  have h2 := createEdges_preserves_indices miniSemver stC1 stC1Res h
  exact ⟨h, h2.1, h2.2.1, h2.2.2⟩

/-- A successful `Except` computation carries a value. -/
theorem exceptOk_exists {ε α : Type} (x : Except ε α) (h : exceptOk x = true) :
    ∃ a, x = Except.ok a := by
  cases x with
  | error e => cases h
  | ok a => exact ⟨a, rfl⟩

/-- If every declared range of the dependency list parses, the
dependency loop cannot abort. -/
theorem edgesForDeps_ok (S : Semver) :
    ∀ (deps : List (String × String)) (pid : Int) (st : BuildState),
      deps.all (fun d => exceptOk (S.parseRange d.2)) = true →
      exceptOk (edgesForDeps S deps pid st) = true := by
  intro deps
  induction deps with
  | nil => intro pid st _; rfl
  | cons d rest ih =>
      obtain ⟨dn, dr⟩ := d
      intro pid st h
      simp only [List.all_cons, Bool.and_eq_true] at h
      obtain ⟨c, hc⟩ := exceptOk_exists _ h.1
      simp only [edgesForDeps, hc]
      exact ih pid _ h.2

/-- If every declared range of every version parses, the version loop
cannot abort. -/
theorem edgesForVersions_ok (S : Semver) :
    ∀ (vers : List (String × VersionInfo)) (pid : Int) (st : BuildState),
      vers.all (fun q => q.2.dependencies.all (fun d => exceptOk (S.parseRange d.2))) = true →
      exceptOk (edgesForVersions S vers pid st) = true := by
  intro vers
  induction vers with
  | nil => intro pid st _; rfl
  | cons q rest ih =>
      obtain ⟨k, vi⟩ := q
      intro pid st h
      simp only [List.all_cons, Bool.and_eq_true] at h
      obtain ⟨st1, h1⟩ := exceptOk_exists _ (edgesForDeps_ok S vi.dependencies pid st h.1)
      simp only [edgesForVersions, h1]
      exact ih pid st1 h.2

/-- If every declared range in the package list parses, the package
loop cannot abort. -/
theorem edgesForPackages_ok (S : Semver) :
    ∀ (ps : List PackageInfo) (idx : Int) (st : BuildState),
      ps.all (fun p => p.versions.all (fun q =>
        q.2.dependencies.all (fun d => exceptOk (S.parseRange d.2)))) = true →
      exceptOk (edgesForPackages S ps idx st) = true := by
  intro ps
  induction ps with
  | nil => intro idx st _; rfl
  | cons p rest ih =>
      intro idx st h
      simp only [List.all_cons, Bool.and_eq_true] at h
      obtain ⟨st1, h1⟩ := exceptOk_exists _ (edgesForVersions_ok S p.versions idx st h.1)
      simp only [edgesForPackages, h1]
      exact ih (idx + 1) st1 h.2

/-- C8 amended: a published version string that fails to parse during
matching is substituted by the zero version `0.0.0` (the discarded
parse error leaves Go's zero `Version{}`), so it contributes an edge
exactly when the range admits `0.0.0`; unlike a malformed range, it
never aborts the build — if every range parses, `CreateEdges`
completes whatever the version strings contain. -/
theorem createEdges_malformed_version_zero_policy (S : Semver) (st : BuildState)
    (h : RangesOk S st.inputList = true) :
    exceptOk (CreateEdges S st) = true ∧
    ∀ (c : SemVersion → Bool) (dn v : String) (pid : Int) (st0 : BuildState) (e : String),
      S.parse v = Except.error e →
      edgesForMatches S c dn [v] pid st0 =
        (if c zeroVersion then
          { st0 with graph :=
              setEdge st0.graph (pid, (alookup st0.nameToID (dn ++ "-" ++ v)).getD 0) }
        else st0) := by
  constructor
  · exact edgesForPackages_ok S st.inputList 0 st h
  · intro c dn v pid st0 e he
    simp only [edgesForMatches, he]

/-- Witness for C8's amended claim at the concrete fixture `inputC8`,
whose one range parses while its one version string does not. -/
theorem createEdges_malformed_version_zero_policy_witness :
    RangesOk miniSemver (mkState inputC8).inputList = true ∧
    exceptOk (CreateEdges miniSemver (mkState inputC8)) = true := by
  refine ⟨by decide, ?_⟩
  exact (createEdges_malformed_version_zero_policy miniSemver (mkState inputC8) (by decide)).1

/-- The anchor scan treats the two queried ids symmetrically. -/
theorem matchNeighbor_symm : ∀ (ns : List Int) (g u v : Int),
    matchNeighbor ns g u v = matchNeighbor ns g v u := by
  intro ns g u v
  induction ns with
  | nil => rfl
  | cons n ns ih =>
      simp only [matchNeighbor]
      rw [Bool.or_comm, ih]

/-- The anchor scan finds an edge exactly when some direct neighbor
carries one of the two queried ids. -/
theorem matchNeighbor_ne_none_iff : ∀ (ns : List Int) (g u v : Int),
    matchNeighbor ns g u v ≠ none ↔ ∃ n ∈ ns, n = u ∨ n = v := by
  intro ns g u v
  induction ns with
  | nil => simp [matchNeighbor]
  | cons n ns ih =>
      simp only [matchNeighbor]
      by_cases h : (n == u || n == v) = true
      · rw [if_pos h]
        simp only [Bool.or_eq_true, beq_iff_eq] at h
        constructor
        · intro _
          exact ⟨n, List.mem_cons_self n ns, h⟩
        · intro _
          simp
      · rw [if_neg h]
        simp only [Bool.or_eq_true, beq_iff_eq] at h
        push_neg at h
        rw [ih]
        constructor
        · rintro ⟨m, hm, hmv⟩
          exact ⟨m, List.mem_cons_of_mem n hm, hmv⟩
        · rintro ⟨m, hm, hmv⟩
          rcases List.mem_cons.mp hm with rfl | hm'
          · exact absurd hmv (not_or.mpr h)
          · exact ⟨m, hm', hmv⟩

/-- What the anchor scan returns: the anchor itself as source and one
of its direct neighbors, carrying one of the queried ids, as target. -/
theorem matchNeighbor_sound : ∀ (ns : List Int) (g u v f t : Int),
    matchNeighbor ns g u v = some (f, t) →
    f = g ∧ t ∈ ns ∧ (t = u ∨ t = v) := by
  intro ns g u v
  induction ns with
  | nil => intro f t h; cases h
  | cons n ns ih =>
      intro f t h
      simp only [matchNeighbor] at h
      by_cases hc : (n == u || n == v) = true
      · rw [if_pos hc] at h
        injection h with h
        injection h with h1 h2
        subst h1; subst h2
        simp only [Bool.or_eq_true, beq_iff_eq] at hc
        exact ⟨rfl, List.mem_cons_self n ns, hc⟩
      · rw [if_neg hc] at h
        obtain ⟨h1, h2, h3⟩ := ih f t h
        exact ⟨h1, List.mem_cons_of_mem n h2, h3⟩

/-- The inner search loop is symmetric in the queried ids whenever the
recursive call is. -/
theorem ebListGo_symm (rec : Int → Int → Int → List Int → Option (Option (Int × Int) × List Int))
    (hrec : ∀ g u v seen, rec g u v seen = rec g v u seen) :
    ∀ (ns : List Int) (u v : Int) (seen : List Int),
      ebListGo rec ns u v seen = ebListGo rec ns v u seen := by
  intro ns
  induction ns with
  | nil => intro u v seen; rfl
  | cons n ns ih =>
      intro u v seen
      simp only [ebListGo]
      by_cases h : n ∈ seen
      · rw [if_pos h, if_pos h]
        exact ih u v seen
      · rw [if_neg h, if_neg h, hrec n u v (n :: seen)]
        cases hv : rec n v u (n :: seen) with
        | none => rfl
        | some p =>
            obtain ⟨eo, s⟩ := p
            cases eo with
            | none => exact ih u v s
            | some e => rfl

/-- The recursive `edgeBetween` is symmetric in the queried ids. -/
theorem ebAux_symm (G : ImpGraph) : ∀ (fuel : Nat) (g u v : Int) (seen : List Int),
    ebAux G fuel g u v seen = ebAux G fuel g v u seen := by
  intro fuel
  induction fuel with
  | zero => intro g u v seen; rfl
  | succ f ih =>
      intro g u v seen
      simp only [ebAux]
      rw [Bool.or_comm, matchNeighbor_symm (neighbors G g) g u v,
        ebListGo_symm (ebAux G f) (fun a b c d => ih a b c d) (neighbors G g) u v seen]

/-- The top-level neighbor loop of `EdgeBetween` is symmetric in the
queried ids. -/
theorem ebTop_symm (G : ImpGraph) (fuel : Nat) :
    ∀ (ns : List Int) (u v : Int) (seen : List Int),
      ebTop G fuel ns u v seen = ebTop G fuel ns v u seen := by
  intro ns
  induction ns with
  | nil => intro u v seen; rfl
  | cons n ns ih =>
      intro u v seen
      simp only [ebTop]
      rw [ebAux_symm G fuel n u v (insSeen n seen)]
      cases hv : ebAux G fuel n v u (insSeen n seen) with
      | none => rfl
      | some p =>
          obtain ⟨eo, s⟩ := p
          cases eo with
          | none => exact ih u v s
          | some e => rfl

/-- Soundness of the inner search loop, given soundness of the
recursive call: any returned edge joins one of the queried ids to a
direct neighbor of it carrying the other (or same) queried id. -/
theorem ebListGo_sound (G : ImpGraph)
    (rec : Int → Int → Int → List Int → Option (Option (Int × Int) × List Int))
    (hrec : ∀ g u v seen f t s, rec g u v seen = some (some (f, t), s) →
      (f = u ∨ f = v) ∧ t ∈ neighbors G f ∧ (t = u ∨ t = v)) :
    ∀ (ns : List Int) (u v : Int) (seen : List Int) (f t : Int) (s : List Int),
      ebListGo rec ns u v seen = some (some (f, t), s) →
      (f = u ∨ f = v) ∧ t ∈ neighbors G f ∧ (t = u ∨ t = v) := by
  intro ns
  induction ns with
  | nil =>
      intro u v seen f t s h
      simp only [ebListGo] at h
      injection h with h
      injection h with ha hb
      cases ha
  | cons n ns ih =>
      intro u v seen f t s h
      simp only [ebListGo] at h
      by_cases hm : n ∈ seen
      · rw [if_pos hm] at h
        exact ih u v seen f t s h
      · rw [if_neg hm] at h
        cases hv : rec n u v (n :: seen) with
        | none => rw [hv] at h; cases h
        | some p =>
            obtain ⟨eo, s'⟩ := p
            rw [hv] at h
            cases eo with
            | none => exact ih u v s' f t s h
            | some e =>
                injection h with h
                injection h with ha hb
                injection ha with ha
                subst ha
                exact hrec n u v (n :: seen) f t s' hv

/-- Soundness of the recursive `edgeBetween`. -/
theorem ebAux_sound (G : ImpGraph) : ∀ (fuel : Nat) (g u v : Int) (seen : List Int) (f t : Int) (s : List Int),
    ebAux G fuel g u v seen = some (some (f, t), s) →
    (f = u ∨ f = v) ∧ t ∈ neighbors G f ∧ (t = u ∨ t = v) := by
  intro fuel
  induction fuel with
  | zero => intro g u v seen f t s h; cases h
  | succ fl ih =>
      intro g u v seen f t s h
      simp only [ebAux] at h
      by_cases hc : (u == g || v == g) = true
      · rw [if_pos hc] at h
        injection h with h
        injection h with ha hb
        obtain ⟨h1, h2, h3⟩ := matchNeighbor_sound (neighbors G g) g u v f t ha
        subst h1
        simp only [Bool.or_eq_true, beq_iff_eq] at hc
        exact ⟨hc.imp Eq.symm Eq.symm, h2, h3⟩
      · rw [if_neg hc] at h
        exact ebListGo_sound G (ebAux G fl) (fun a b c d e g h => ih a b c d e g h)
          (neighbors G g) u v seen f t s h

/-- Soundness of the top-level neighbor loop of `EdgeBetween`. -/
theorem ebTop_sound (G : ImpGraph) (fuel : Nat) :
    ∀ (ns : List Int) (u v : Int) (seen : List Int) (f t : Int),
      ebTop G fuel ns u v seen = some (some (f, t)) →
      (f = u ∨ f = v) ∧ t ∈ neighbors G f ∧ (t = u ∨ t = v) := by
  intro ns
  induction ns with
  | nil => intro u v seen f t h; cases h
  | cons n ns ih =>
      intro u v seen f t h
      simp only [ebTop] at h
      cases hv : ebAux G fuel n u v (insSeen n seen) with
      | none => rw [hv] at h; cases h
      | some p =>
          obtain ⟨eo, s⟩ := p
          rw [hv] at h
          cases eo with
          | none => exact ih u v s f t h
          | some e =>
              injection h with h
              have he : e = (f, t) := Option.some.inj h
              subst he
              exact ebAux_sound G fuel n u v (insSeen n seen) f t s hv

/-- C6 amended: `EdgeBetween(u, v)` is symmetric in `u` and `v` rather
than a strict from→to directed-edge test; when `u` or `v` equals the
root's id, an edge is returned exactly when the root's *direct*
neighbor list carries the other (or same) queried id — no search runs,
so an anchor reachable only deeper in the graph is missed; and any
returned edge runs from a discovered anchor carrying one queried id to
a direct neighbor of that anchor carrying one of the queried ids. -/
theorem edgeBetween_symmetric_anchor (G : ImpGraph) (fuel : Nat) (g u v : Int) :
    EdgeBetweenF G fuel g u v = EdgeBetweenF G fuel g v u ∧
    ((u = g ∨ v = g) →
      ((EdgeBetweenF G fuel g u v).join ≠ none ↔ ∃ n ∈ neighbors G g, n = u ∨ n = v)) ∧
    (∀ f t, (EdgeBetweenF G fuel g u v).join = some (f, t) →
      (f = u ∨ f = v) ∧ t ∈ neighbors G f ∧ (t = u ∨ t = v)) := by
  refine ⟨?_, ?_, ?_⟩
  · simp only [EdgeBetweenF]
    rw [Bool.or_comm, matchNeighbor_symm (neighbors G g) g u v,
      ebTop_symm G fuel (neighbors G g) u v [g]]
  · intro h
    have hb : (u == g || v == g) = true := by
      rcases h with h | h <;> simp [h]
    have hE : EdgeBetweenF G fuel g u v = some (matchNeighbor (neighbors G g) g u v) := by
      simp only [EdgeBetweenF, if_pos hb]
    rw [hE]
    exact matchNeighbor_ne_none_iff (neighbors G g) g u v
  · intro f t h
    simp only [EdgeBetweenF] at h
    by_cases hc : (u == g || v == g) = true
    · rw [if_pos hc] at h
      have ha : matchNeighbor (neighbors G g) g u v = some (f, t) := h
      obtain ⟨h1, h2, h3⟩ := matchNeighbor_sound (neighbors G g) g u v f t ha
      subst h1
      simp only [Bool.or_eq_true, beq_iff_eq] at hc
      exact ⟨hc.imp Eq.symm Eq.symm, h2, h3⟩
    · rw [if_neg hc] at h
      have h' : ebTop G fuel (neighbors G g) u v [g] = some (some (f, t)) := by
        cases hv : ebTop G fuel (neighbors G g) u v [g] with
        | none =>
            rw [hv] at h
            have h2 : (none : Option (Int × Int)) = some (f, t) := h
            cases h2
        | some eo =>
            rw [hv] at h
            cases eo with
            | none =>
                have h2 : (none : Option (Int × Int)) = some (f, t) := h
                cases h2
            | some e =>
                have h2 : some e = some (f, t) := h
                injection h2 with h2
                subst h2
                rfl
      exact ebTop_sound G fuel (neighbors G g) u v [g] f t h'

/-- Witness for C6's amended claim on the 3-cycle: querying the root's
own id 0 against its direct neighbor 1 is symmetric and finds the
edge. -/
theorem edgeBetween_symmetric_anchor_witness :
    EdgeBetweenF G3 4 0 0 1 = EdgeBetweenF G3 4 0 1 0 ∧
    ((EdgeBetweenF G3 4 0 0 1).join ≠ none ↔ ∃ n ∈ neighbors G3 0, n = 0 ∨ n = 1) := by
  have h := edgeBetween_symmetric_anchor G3 4 0 0 1
  exact ⟨h.1, h.2.1 (Or.inl rfl)⟩

/-- Writing a fresh key into a Go map appends the entry. -/
theorem ainsert_fresh {α β : Type} [DecidableEq α] :
    ∀ (m : List (α × β)) (k : α) (v : β), k ∉ m.map Prod.fst →
      ainsert m k v = m ++ [(k, v)] := by
  intro m k v
  induction m with
  | nil => intro _; rfl
  | cons e rest ih =>
      obtain ⟨k', v'⟩ := e
      intro h
      simp only [List.map_cons, List.mem_cons] at h
      push_neg at h
      simp only [ainsert, if_neg h.1]
      rw [ih h.2]
      rfl

theorem enumFrom_append : ∀ (xs ys : List NodeInfoT) (i : Int),
    enumFrom i (xs ++ ys) = enumFrom i xs ++ enumFrom (i + xs.length) ys := by
  intro xs
  induction xs with
  | nil => intro ys i; simp [enumFrom]
  | cons x xs ih =>
      intro ys i
      show (i, x) :: enumFrom (i + 1) (xs ++ ys) =
        (i, x) :: (enumFrom (i + 1) xs ++ enumFrom (i + ((xs.length + 1 : Nat) : Int)) ys)
      rw [ih ys (i + 1)]
      have harith : i + ((xs.length + 1 : Nat) : Int) = i + 1 + (xs.length : Int) := by
        push_cast; ring
      rw [harith]

theorem enumFrom_map_snd : ∀ (xs : List NodeInfoT) (i : Int),
    (enumFrom i xs).map Prod.snd = xs := by
  intro xs
  induction xs with
  | nil => intro i; rfl
  | cons x xs ih => intro i; simp [enumFrom, ih]

theorem enumFrom_length : ∀ (xs : List NodeInfoT) (i : Int),
    (enumFrom i xs).length = xs.length := by
  intro xs
  induction xs with
  | nil => intro i; rfl
  | cons x xs ih => intro i; simp [enumFrom, ih]

theorem enumFrom_map_comp : ∀ (xs : List NodeInfoT) (i : Int),
    (enumFrom i xs).map (fun e => e.2.id) = xs.map (fun ni => ni.id) := by
  intro xs
  induction xs with
  | nil => intro i; rfl
  | cons x xs ih => intro i; simp [enumFrom, ih]

theorem enumFrom_keys_bound : ∀ (xs : List NodeInfoT) (i k : Int),
    k ∈ (enumFrom i xs).map Prod.fst → i ≤ k ∧ k < i + xs.length := by
  intro xs
  induction xs with
  | nil => intro i k h; cases h
  | cons x xs ih =>
      intro i k h
      simp only [enumFrom, List.map_cons, List.mem_cons] at h
      rcases h with h | h
      · subst h
        constructor
        · exact le_refl k
        · simp only [List.length_cons]
          push_cast
          omega
      · obtain ⟨h1, h2⟩ := ih (i + 1) k h
        constructor
        · omega
        · simp only [List.length_cons]
          push_cast
          omega

/-- The inner loop of `CreateMap` appends one freshly keyed entry per
version, keeping keys strictly below the running counter. -/
theorem addVersionsGo_char (nm : String) :
    ∀ (vs : List (String × VersionInfo)) (id : Int) (m : List (Int × NodeInfoT)),
      (∀ k ∈ m.map Prod.fst, k < id) →
      addVersionsGo nm vs id m =
        (m ++ enumFrom id (vs.map (fun q => NodeInfo nm q.1 q.2.timestamp)),
          id + vs.length) := by
  intro vs
  induction vs with
  | nil =>
      intro id m _
      simp [addVersionsGo, enumFrom]
  | cons q rest ih =>
      obtain ⟨v, vi⟩ := q
      intro id m hb
      have hfresh : id ∉ m.map Prod.fst := fun hc => absurd (hb id hc) (lt_irrefl id)
      simp only [addVersionsGo]
      rw [ainsert_fresh m id (NodeInfo nm v vi.timestamp) hfresh]
      rw [ih (id + 1) (m ++ [(id, NodeInfo nm v vi.timestamp)]) ?bound]
      case bound =>
        intro k hk
        simp only [List.map_append, List.mem_append, List.map_cons, List.map_nil,
          List.mem_cons, List.not_mem_nil, or_false] at hk
        rcases hk with hk | hk
        · exact lt_trans (hb k hk) (by omega)
        · subst hk; omega
      simp only [List.map_cons, enumFrom, List.length_cons, List.append_assoc,
        List.singleton_append]
      have harith : id + 1 + (rest.length : Int) = id + ((rest.length + 1 : Nat) : Int) := by
        push_cast; ring
      rw [harith]

/-- The outer loop of `CreateMap` enumerates all (package, version)
payloads with consecutive keys. -/
theorem createMapGo_char :
    ∀ (ps : List PackageInfo) (id : Int) (m : List (Int × NodeInfoT)),
      (∀ k ∈ m.map Prod.fst, k < id) →
      createMapGo ps id m = m ++ enumFrom id (infosOf ps) := by
  intro ps
  induction ps with
  | nil => intro id m _; simp [createMapGo, infosOf, enumFrom]
  | cons p rest ih =>
      intro id m hb
      simp only [createMapGo]
      rw [addVersionsGo_char p.name p.versions id m hb]
      rw [ih (id + (p.versions.length : Int))
        (m ++ enumFrom id (p.versions.map (fun q => NodeInfo p.name q.1 q.2.timestamp)))
        ?bound]
      case bound =>
        intro k hk
        simp only [List.map_append, List.mem_append] at hk
        rcases hk with hk | hk
        · have := hb k hk
          have hlen : (0 : Int) ≤ p.versions.length := by positivity
          omega
        · have h2 := (enumFrom_keys_bound _ id k hk).2
          simpa using h2
      rw [List.append_assoc]
      simp only [infosOf]
      rw [enumFrom_append]
      simp

/-- `CreateMap` is exactly the consecutive enumeration, from 0, of the
(package, version) payloads of the input. -/
theorem CreateMap_eq (input : List PackageInfo) :
    CreateMap input = enumFrom 0 (infosOf input) := by
  have h := createMapGo_char input 0 [] (by intro k hk; cases hk)
  simpa [CreateMap] using h

/-- With pairwise-distinct composite keys, the loop of
`CreateNameToIDMap` appends one entry per id-map entry. -/
theorem cimGo_char :
    ∀ (m : List (Int × NodeInfoT)) (acc : List (String × Int)),
      ((m.map (fun e => e.2.id)).Nodup) →
      (∀ s ∈ m.map (fun e => e.2.id), s ∉ acc.map Prod.fst) →
      cimGo m acc = acc ++ m.map (fun e => (e.2.id, e.1)) := by
  intro m
  induction m with
  | nil => intro acc _ _; simp [cimGo]
  | cons e rest ih =>
      obtain ⟨id, info⟩ := e
      intro acc hnd hdisj
      simp only [List.map_cons, List.nodup_cons] at hnd
      simp only [cimGo]
      rw [ainsert_fresh acc info.id id (hdisj info.id (by simp))]
      rw [ih (acc ++ [(info.id, id)]) hnd.2 ?disj]
      case disj =>
        intro s hs
        simp only [List.map_append, List.mem_append, List.map_cons, List.map_nil,
          List.mem_cons, List.not_mem_nil, or_false]
        push_neg
        constructor
        · exact hdisj s (by simp [hs])
        · intro he
          exact hnd.1 (he ▸ hs)
      simp

/-- First-match lookup in a list with pairwise-distinct keys finds the
value paired with the key. -/
theorem alookup_of_mem_nodup {α β : Type} [DecidableEq α] :
    ∀ (l : List (α × β)) (k : α) (v : β),
      (l.map Prod.fst).Nodup → (k, v) ∈ l → alookup l k = some v := by
  intro l
  induction l with
  | nil => intro k v _ h; cases h
  | cons e rest ih =>
      obtain ⟨k', v'⟩ := e
      intro k v hnd hmem
      simp only [List.map_cons, List.nodup_cons] at hnd
      rcases List.mem_cons.mp hmem with he | hmem'
      · injection he with h1 h2
        subst h1; subst h2
        simp [alookup]
      · by_cases hk : k = k'
        · subst hk
          exact absurd (List.mem_map_of_mem Prod.fst hmem') hnd.1
        · simp only [alookup, if_neg hk]
          exact ih k v hnd.2 hmem'

/-- C10: when the composite strings `name ++ "-" ++ version` of all
(package, version) pairs are pairwise distinct, `CreateNameToIDMap`
applied to `CreateMap`'s output is a left inverse of id assignment:
it has exactly one entry per pair, and looking up the composite string
of any assigned id returns that id. -/
theorem createNameToIDMap_left_inverse (input : List PackageInfo)
    (h : ((infosOf input).map (fun ni => ni.id)).Nodup) :
    (CreateNameToIDMap (CreateMap input)).length = (CreateMap input).length ∧
    (CreateMap input).length = (infosOf input).length ∧
    ∀ (id : Int) (info : NodeInfoT), (id, info) ∈ CreateMap input →
      alookup (CreateNameToIDMap (CreateMap input)) info.id = some id := by
  have hm : CreateMap input = enumFrom 0 (infosOf input) := CreateMap_eq input
  have hcomp : (CreateMap input).map (fun e => e.2.id) =
      (infosOf input).map (fun ni => ni.id) := by
    rw [hm]
    exact enumFrom_map_comp (infosOf input) 0
  have hnd : ((CreateMap input).map (fun e => e.2.id)).Nodup := by
    rw [hcomp]; exact h
  have hc := cimGo_char (CreateMap input) [] hnd (by intro s _; simp)
  have hcim : CreateNameToIDMap (CreateMap input) =
      (CreateMap input).map (fun e => (e.2.id, e.1)) := by
    simpa [CreateNameToIDMap] using hc
  refine ⟨?_, ?_, ?_⟩
  · rw [hcim, List.length_map]
  · rw [hm, enumFrom_length]
  · intro id info hmem
    rw [hcim]
    have hkeys : (((CreateMap input).map (fun e => (e.2.id, e.1))).map Prod.fst).Nodup := by
      rw [List.map_map]
      exact hnd
    have hmem2 : (info.id, id) ∈ (CreateMap input).map (fun e => (e.2.id, e.1)) :=
      List.mem_map.mpr ⟨(id, info), hmem, rfl⟩
    exact alookup_of_mem_nodup _ info.id id hkeys hmem2

/-- Witness for C10 at the concrete fixture `inputC1`: the composites
are distinct and the composite of id 1 (`A-2.0.0`) looks back up to 1. -/
theorem createNameToIDMap_left_inverse_witness :
    ((infosOf inputC1).map (fun ni => ni.id)).Nodup ∧
    alookup (CreateNameToIDMap (CreateMap inputC1)) "A-2.0.0" = some 1 := by
  refine ⟨by decide, ?_⟩
  have h := (createNameToIDMap_left_inverse inputC1 (by decide)).2.2 1
    (NodeInfo "A" "2.0.0" "t2") (by decide)
  rw [show (NodeInfo "A" "2.0.0" "t2").id = "A-2.0.0" from by decide] at h
  exact h

